import Mathlib

/-!
Shallow embedding of the relational-algebra engine in `relations.py`
(class `Relation` and the static operators of class `Relations`).

Python tuples of arbitrary values are modelled as `List α` for a value type
`α` with decidable equality and a default element (used only for positional
access `row[i]`, which in the source is always in range when every tuple's
arity matches its schema).  Python `set`s of tuples are modelled as
`Finset (List α)`.  Every operation that can raise `ValueError` in the
source returns `Except (RelError α) _`; the distinct `ValueError` messages
of the source are distinguished by `RelError` constructors.
-/

set_option linter.unusedSectionVars false

namespace RelAlg

variable {α : Type} [DecidableEq α] [Inhabited α]

/-- `class Relation`: a name, an ordered attribute list and a set of tuples. -/
structure Relation (α : Type) where
  name : String
  attributes : List String
  data : Finset (List α)
  deriving DecidableEq

/-- The distinct `ValueError`s raised by `relations.py`.  The arity error
names the offending tuple when one is determined (Python iterates an
unordered set, so when validating a set the choice of offending tuple is
unspecified and recorded as `none`). -/
inductive RelError (α : Type) where
  | arityMismatch (t : Option (List α)) (expected : Nat)
  | attributeNotFound (a : String)
  | schemaMismatch
  | attributeSubsetViolation
  | emptyResultSchema
  deriving DecidableEq

/-- The arity invariant checked by `Relation.__init__`: every tuple of
`data` has length equal to the number of attributes. -/
def Relation.valid (r : Relation α) : Prop :=
  ∀ t ∈ r.data, t.length = r.attributes.length

instance (r : Relation α) : Decidable r.valid := by
  unfold Relation.valid; infer_instance

/-- `Relation.__init__` (`relations.py` lines 7-20): store the fields after
checking that every tuple's length equals the attribute count, raising
`ValueError` naming the offending tuple and the schema otherwise. -/
def mkRelation (name : String) (attributes : List String)
    (data : Finset (List α)) : Except (RelError α) (Relation α) :=
  if ∀ t ∈ data, t.length = attributes.length then .ok ⟨name, attributes, data⟩
  else .error (.arityMismatch none attributes.length)

/-- Constructing a `Relation` from a collection (list) of tuples: the Python
caller's conversion of a collection to a `set` (silently collapsing
duplicates) followed by `Relation.__init__`.  Here the iteration order is
the input order, so the first offending tuple is the one reported. -/
def mkRelationOfList (name : String) (attributes : List String)
    (input : List (List α)) : Except (RelError α) (Relation α) :=
  match input.find? (fun t => t.length != attributes.length) with
  | some t => .error (.arityMismatch (some t) attributes.length)
  | none => .ok ⟨name, attributes, input.toFinset⟩

/-- `Relations.rename` (lines 32-41). -/
def rename (r : Relation α) (oldName newName : String) :
    Except (RelError α) (Relation α) :=
  if oldName ∈ r.attributes then
    mkRelation (r.name ++ "_renamed")
      (r.attributes.map (fun a => if a = oldName then newName else a)) r.data
  else .error (.attributeNotFound oldName)

/-- `Relations.union` (lines 43-52). -/
def union (a b : Relation α) : Except (RelError α) (Relation α) :=
  if a.attributes = b.attributes then
    mkRelation (a.name ++ "_UNION_" ++ b.name) a.attributes (a.data ∪ b.data)
  else .error .schemaMismatch

/-- `Relations.intersection` (lines 54-63). -/
def intersection (a b : Relation α) : Except (RelError α) (Relation α) :=
  if a.attributes = b.attributes then
    mkRelation (a.name ++ "_INTERSECT_" ++ b.name) a.attributes
      (a.data ∩ b.data)
  else .error .schemaMismatch

/-- `Relations.difference` (lines 65-74). -/
def difference (a b : Relation α) : Except (RelError α) (Relation α) :=
  if a.attributes = b.attributes then
    mkRelation (a.name ++ "_MINUS_" ++ b.name) a.attributes (a.data \ b.data)
  else .error .schemaMismatch

/-- `Relations.assign` (lines 76-81): a copy under a new name (deep copies
are identities in a purely functional model). -/
def assign (r : Relation α) (newName : String) :
    Except (RelError α) (Relation α) :=
  mkRelation newName r.attributes r.data

/-- `Relations.cartesian_product` (lines 83-96). -/
def cartesian_product (a b : Relation α) : Except (RelError α) (Relation α) :=
  mkRelation (a.name ++ "_x_" ++ b.name) (a.attributes ++ b.attributes)
    ((a.data ×ˢ b.data).image (fun p => p.1 ++ p.2))

/-- `Relations.selection` (lines 98-104). -/
def selection (r : Relation α) (cond : List α → Bool) :
    Except (RelError α) (Relation α) :=
  mkRelation (r.name ++ "_SELECT") r.attributes
    (r.data.filter (fun row => cond row = true))

/-- Positional access `tuple(row[i] for i in idxs)` used by projection,
join and division; out-of-range access yields `default` (never hit when the
arity invariant holds). -/
def keyOf (row : List α) (idxs : List Nat) : List α :=
  idxs.map (fun i => row.getD i default)

/-- `Relations.projection` (lines 106-119).  The source's
`relation.attributes.index(attr)` raises `ValueError` for the first
requested attribute missing from the schema. -/
def projection (r : Relation α) (keepAttrs : List String) :
    Except (RelError α) (Relation α) :=
  match keepAttrs.find? (fun a => decide (a ∉ r.attributes)) with
  | some a => .error (.attributeNotFound a)
  | none =>
    let indices := keepAttrs.map (fun a => r.attributes.indexOf a)
    mkRelation (r.name ++ "_PROJ") keepAttrs
      (r.data.image (fun row => keyOf row indices))

/-- `Relations.natural_join` (lines 121-156).  The hash index `b_index`
keyed by the common-attribute values is embedded extensionally: the pairs
`(row_a, row_b)` that the probe loop visits are exactly the pairs whose
keys over the common attributes coincide. -/
def natural_join (a b : Relation α) : Except (RelError α) (Relation α) :=
  let common := a.attributes.filter (fun x => decide (x ∈ b.attributes))
  if common = [] then cartesian_product a b
  else
    let aIdx := common.map (fun x => a.attributes.indexOf x)
    let bIdx := common.map (fun x => b.attributes.indexOf x)
    let newAttrs := a.attributes ++
      b.attributes.filter (fun x => decide (x ∉ common))
    let stripB : List α → List α := fun rowB =>
      ((List.range b.attributes.length).filter (fun j => decide (j ∉ bIdx))).map
        (fun j => rowB.getD j default)
    let newData :=
      ((a.data ×ˢ b.data).filter
          (fun p => keyOf p.1 aIdx = keyOf p.2 bIdx)).image
        (fun p => p.1 ++ stripB p.2)
    mkRelation (a.name ++ "_JOIN_" ++ b.name) newAttrs newData

/-- `Relations.division` (lines 158-198).  The grouping dict `a_grouped`
is embedded extensionally: a key `x` (a projection of some `A`-row onto the
result attributes) survives iff its group's set of common-attribute values
contains every tuple of `B`. -/
def division (a b : Relation α) : Except (RelError α) (Relation α) :=
  let common := b.attributes.filter (fun x => decide (x ∈ a.attributes))
  if b.attributes.toFinset ≠ common.toFinset then
    .error .attributeSubsetViolation
  else
    let resultAttrs := a.attributes.filter (fun x => decide (x ∉ common))
    if resultAttrs = [] then .error .emptyResultSchema
    else
      let aCommonIdx := common.map (fun x => a.attributes.indexOf x)
      let aResultIdx := resultAttrs.map (fun x => a.attributes.indexOf x)
      let resultData :=
        (a.data.image (fun row => keyOf row aResultIdx)).filter
          (fun x => ∀ y ∈ b.data, ∃ row ∈ a.data,
            keyOf row aResultIdx = x ∧ keyOf row aCommonIdx = y)
      mkRelation (a.name ++ "_DIV_" ++ b.name) resultAttrs resultData

/-- The claim's combination of a division-result tuple `x` with a divisor
tuple `y`: the tuple over `aattrs` holding, at each position whose
attribute is named in `battrs`, the `y`-value of that attribute (ordered
by `battrs`), and at every other position the `x`-value of that attribute
(ordered by the non-`battrs` attributes of `aattrs`). -/
def recombine (aattrs battrs : List String) (x y : List α) : List α :=
  (List.range aattrs.length).map fun i =>
    if aattrs.getD i "" ∈ battrs then
      y.getD (battrs.indexOf (aattrs.getD i "")) default
    else
      x.getD ((aattrs.filter fun d => decide (d ∉ battrs)).indexOf
        (aattrs.getD i "")) default

/-- A relation's outcome satisfies the arity invariant: trivially for an
error, and as `Relation.valid` for a successfully built relation. -/
def resultValid : Except (RelError α) (Relation α) → Prop
  | .error _ => True
  | .ok r => r.valid

/-- The students relation of the source's demonstration block, with the
non-numeric values coded as numbers. -/
def studentsRel : Relation Nat :=
  ⟨"Students", ["id", "nm", "gid"], {[1, 10, 101], [2, 20, 102], [3, 30, 101]}⟩

/-- The groups relation of the source's demonstration block, numerically
coded. -/
def groupsRel : Relation Nat :=
  ⟨"Groups", ["gid", "crs", "fac"], {[101, 2, 7], [102, 3, 7]}⟩

/-- A dividend over attributes `x, y`. -/
def divARel : Relation Nat := ⟨"A", ["x", "y"], {[1, 5], [1, 6], [2, 5]}⟩

/-- A divisor over attribute `y`. -/
def divBRel : Relation Nat := ⟨"B", ["y"], {[5], [6]}⟩

/-- A divisor over attribute `y` with no tuples. -/
def emptyBRel : Relation Nat := ⟨"B0", ["y"], ∅⟩

/-- A one-column relation over `x`. -/
def xRel : Relation Nat := ⟨"X", ["x"], {[1], [2]}⟩

/-- Another one-column relation over `x`. -/
def yRel : Relation Nat := ⟨"Y", ["x"], {[2], [3]}⟩

/-- A one-column relation over `z`, disjoint from `xRel`'s schema. -/
def zRel : Relation Nat := ⟨"Z", ["z"], {[9]}⟩

/-! ### Helper lemmas -/

theorem getD_getElem (l : List α) (d : α) {i : Nat} (h : i < l.length) :
    l.getD i d = l[i] := by
  simp [List.getD_eq_getElem?_getD, List.getElem?_eq_getElem h]

theorem mkRelation_ok_iff {n : String} {as : List String}
    {d : Finset (List α)} {r : Relation α} :
    mkRelation n as d = Except.ok r ↔
      (∀ t ∈ d, t.length = as.length) ∧ r = ⟨n, as, d⟩ := by
  unfold mkRelation
  split
  · constructor
    · intro h
      refine ⟨by assumption, ?_⟩
      cases h
      rfl
    · intro ⟨_, h⟩
      rw [h]
  · constructor
    · intro h
      cases h
    · intro ⟨h, _⟩
      exact absurd h (by assumption)

/-- Every successfully constructed relation satisfies the arity invariant:
`Relation.__init__` rejects everything else. -/
theorem valid_of_mkRelation_ok {n : String} {as : List String}
    {d : Finset (List α)} {r : Relation α}
    (h : mkRelation n as d = Except.ok r) : r.valid := by
  obtain ⟨hlen, hr⟩ := mkRelation_ok_iff.mp h
  subst hr
  exact hlen

theorem resultValid_mkRelation (n : String) (as : List String)
    (d : Finset (List α)) : resultValid (mkRelation n as d) := by
  cases h : mkRelation n as d with
  | error e => trivial
  | ok r => exact valid_of_mkRelation_ok h

/-! ### Claim theorems -/

/-- C3: constructing a `Relation` from a name, an attribute list and a
collection of tuples fails, naming an offending tuple and the expected
arity, exactly when some tuple's length differs from the attribute count;
on success the stored data is the input with duplicates silently
collapsed. -/
theorem mkRelationOfList_spec (name : String) (attrs : List String)
    (input : List (List α)) :
    (match mkRelationOfList name attrs input with
     | .error e =>
        (∃ t ∈ input, t.length ≠ attrs.length) ∧
        ∃ t ∈ input, t.length ≠ attrs.length ∧
          e = .arityMismatch (some t) attrs.length
     | .ok r =>
        (∀ t ∈ input, t.length = attrs.length) ∧
        r.data = input.toFinset ∧ r.attributes = attrs) := by
  unfold mkRelationOfList
  cases hf : input.find? (fun t => t.length != attrs.length) with
  | some t =>
    have h1 : t.length ≠ attrs.length := by
      simpa using List.find?_some hf
    have h2 : t ∈ input := List.mem_of_find?_eq_some hf
    exact ⟨⟨t, h2, h1⟩, t, h2, h1, rfl⟩
  | none =>
    have h := List.find?_eq_none.mp hf
    refine ⟨fun t ht => ?_, rfl, rfl⟩
    simpa using h t ht

/-- C4: union of two relations with identical attribute sequences succeeds,
with data the set union of the two data sets and schema `A`'s attributes;
with different attribute sequences it fails with the schema-mismatch
error. -/
theorem union_spec (a b : Relation α) (ha : a.valid) (hb : b.valid) :
    (a.attributes = b.attributes →
      ∃ r, union a b = Except.ok r ∧ r.data = a.data ∪ b.data ∧
        r.attributes = a.attributes) ∧
    (a.attributes ≠ b.attributes →
      union a b = Except.error RelError.schemaMismatch) := by
  constructor
  · intro h
    refine ⟨⟨a.name ++ "_UNION_" ++ b.name, a.attributes, a.data ∪ b.data⟩,
      ?_, rfl, rfl⟩
    unfold union
    rw [if_pos h]
    apply mkRelation_ok_iff.mpr
    refine ⟨fun t ht => ?_, rfl⟩
    rcases Finset.mem_union.mp ht with h1 | h1
    · exact ha t h1
    · rw [hb t h1, h]
  · intro h
    unfold union
    rw [if_neg h]

/-- C8: rename fails with the attribute-not-found error exactly when
`old_name` is absent from the schema; on success the data is unchanged and
the schema is the original attribute list with every occurrence of
`old_name` replaced by `new_name` in place. -/
theorem rename_spec (r : Relation α) (hr : r.valid) (o n : String) :
    (o ∉ r.attributes →
      rename r o n = Except.error (RelError.attributeNotFound o)) ∧
    (o ∈ r.attributes →
      ∃ s, rename r o n = Except.ok s ∧ s.data = r.data ∧
        s.attributes = r.attributes.map fun x => if x = o then n else x) := by
  constructor
  · intro h
    unfold rename
    rw [if_neg h]
  · intro h
    refine ⟨⟨r.name ++ "_renamed",
      r.attributes.map fun x => if x = o then n else x, r.data⟩, ?_, rfl, rfl⟩
    unfold rename
    rw [if_pos h]
    apply mkRelation_ok_iff.mpr
    refine ⟨fun t ht => ?_, rfl⟩
    rw [hr t ht, List.length_map]

/-- C9: every relation any operator returns satisfies the arity invariant
(the constructor run at the end of each operator enforces it). -/
theorem operators_preserve_arity (a b : Relation α) (ha : a.valid)
    (hb : b.valid) (o n nm : String) (cond : List α → Bool)
    (cols : List String) :
    resultValid (rename a o n) ∧ resultValid (union a b) ∧
    resultValid (intersection a b) ∧ resultValid (difference a b) ∧
    resultValid (assign a nm) ∧ resultValid (cartesian_product a b) ∧
    resultValid (selection a cond) ∧ resultValid (projection a cols) ∧
    resultValid (natural_join a b) ∧ resultValid (division a b) := by
  have hcart : resultValid (cartesian_product a b) :=
    resultValid_mkRelation _ _ _
  refine ⟨?_, ?_, ?_, ?_, ?_, hcart, ?_, ?_, ?_, ?_⟩
  · unfold rename
    split
    · exact resultValid_mkRelation _ _ _
    · trivial
  · unfold union
    split
    · exact resultValid_mkRelation _ _ _
    · trivial
  · unfold intersection
    split
    · exact resultValid_mkRelation _ _ _
    · trivial
  · unfold difference
    split
    · exact resultValid_mkRelation _ _ _
    · trivial
  · exact resultValid_mkRelation _ _ _
  · exact resultValid_mkRelation _ _ _
  · unfold projection
    split
    · trivial
    · exact resultValid_mkRelation _ _ _
  · unfold natural_join
    dsimp only
    split
    · exact hcart
    · exact resultValid_mkRelation _ _ _
  · unfold division
    dsimp only
    split
    · trivial
    · split
      · trivial
      · exact resultValid_mkRelation _ _ _

/-- C5: on inputs whose tuples all match their own schema's arity, the
cartesian product succeeds and has exactly `|A| * |B|` tuples: distinct
input pairs concatenate to distinct output tuples. -/
theorem cartesian_product_card (a b : Relation α) (ha : a.valid)
    (hb : b.valid) :
    ∃ r, cartesian_product a b = Except.ok r ∧
      r.data.card = a.data.card * b.data.card := by
  refine ⟨⟨a.name ++ "_x_" ++ b.name, a.attributes ++ b.attributes,
    (a.data ×ˢ b.data).image fun p => p.1 ++ p.2⟩, ?_, ?_⟩
  · apply mkRelation_ok_iff.mpr
    refine ⟨fun t ht => ?_, rfl⟩
    obtain ⟨p, hp, hpt⟩ := Finset.mem_image.mp ht
    obtain ⟨hp1, hp2⟩ := Finset.mem_product.mp hp
    rw [← hpt]
    simp [ha p.1 hp1, hb p.2 hp2]
  · rw [← Finset.card_product a.data b.data]
    apply Finset.card_image_of_injOn
    rintro ⟨x1, y1⟩ h1 ⟨x2, y2⟩ h2 he
    simp only [Finset.coe_product, Set.mem_prod, Finset.mem_coe] at h1 h2
    obtain ⟨hx, hy⟩ := List.append_inj he
      (by rw [ha _ h1.1, ha _ h2.1])
    exact Prod.ext hx hy

/-- C6: when the two schemas share no attribute name, natural join returns
exactly the cartesian product. -/
theorem natural_join_disjoint (a b : Relation α)
    (h : ∀ x ∈ a.attributes, x ∉ b.attributes) :
    natural_join a b = cartesian_product a b := by
  unfold natural_join
  have hc : a.attributes.filter (fun x => decide (x ∈ b.attributes)) = [] := by
    rw [List.filter_eq_nil_iff]
    intro x hx
    simpa using h x hx
  simp only [hc, if_pos]

/-- Re-projecting an already projected row onto the same columns leaves it
unchanged: position `indexOf c` of the projected row holds the value the
first projection put there for column `c`. -/
theorem keyOf_reproject (attrs cols : List String) (row : List α) :
    keyOf (keyOf row (cols.map fun a => attrs.indexOf a))
        (cols.map fun a => cols.indexOf a)
      = keyOf row (cols.map fun a => attrs.indexOf a) := by
  unfold keyOf
  rw [List.map_map, List.map_map]
  apply List.map_congr_left
  intro c hc
  have hk : cols.indexOf c < cols.length := List.indexOf_lt_length.mpr hc
  have hk2 : cols.indexOf c <
      (cols.map ((fun i => row.getD i default) ∘ fun a => attrs.indexOf a)).length := by
    simpa using hk
  simp only [Function.comp]
  rw [getD_getElem _ _ hk2, List.getElem_map]
  rw [List.getElem_indexOf hk]
  rfl

/-- C7: projection onto columns all present in the schema succeeds, and
projecting the result onto the same columns again gives a relation with
the same attribute list and the same data. -/
theorem projection_idempotent (r : Relation α) (cols : List String)
    (h : ∀ c ∈ cols, c ∈ r.attributes) :
    ∃ p q, projection r cols = Except.ok p ∧
      projection p cols = Except.ok q ∧
      q.attributes = p.attributes ∧ q.data = p.data := by
  have hf : cols.find? (fun a => decide (a ∉ r.attributes)) = none := by
    rw [List.find?_eq_none]
    intro c hc
    simpa using h c hc
  refine ⟨⟨r.name ++ "_PROJ", cols,
      r.data.image fun row => keyOf row (cols.map fun a => r.attributes.indexOf a)⟩,
    ⟨r.name ++ "_PROJ" ++ "_PROJ", cols,
      r.data.image fun row => keyOf row (cols.map fun a => r.attributes.indexOf a)⟩,
    ?_, ?_, rfl, rfl⟩
  · unfold projection
    rw [hf]
    apply mkRelation_ok_iff.mpr
    refine ⟨fun t ht => ?_, rfl⟩
    obtain ⟨row, _, hrow⟩ := Finset.mem_image.mp ht
    rw [← hrow]
    simp [keyOf]
  · unfold projection
    have hf2 : cols.find? (fun a => decide (a ∉ cols)) = none := by
      rw [List.find?_eq_none]
      intro c hc
      simpa using hc
    rw [hf2]
    apply mkRelation_ok_iff.mpr
    constructor
    · intro t ht
      obtain ⟨row, _, hrow⟩ := Finset.mem_image.mp ht
      rw [← hrow]
      simp [keyOf]
    · congr 1
      rw [Finset.image_image]
      apply Finset.image_congr
      intro row _
      simp only [Function.comp_apply]
      exact (keyOf_reproject r.attributes cols row).symm

/-- C10: dividing by a relation with an empty data set (whose attributes
are contained in the dividend's, leaving at least one result attribute)
succeeds, and the result is exactly the set of distinct projections of the
dividend's tuples onto the non-divisor attributes: the superset check is
vacuous against an empty divisor. -/
theorem division_empty_divisor (a b : Relation α)
    (hempty : b.data = ∅)
    (hsub : ∀ x ∈ b.attributes, x ∈ a.attributes)
    (hproper : ∃ x ∈ a.attributes, x ∉ b.attributes) :
    ∃ r, division a b = Except.ok r ∧
      r.attributes = (a.attributes.filter fun c => decide (c ∉ b.attributes)) ∧
      r.data = a.data.image fun row =>
        (a.attributes.filter fun c => decide (c ∉ b.attributes)).map
          fun c => row.getD (a.attributes.indexOf c) default := by
  have hcom : b.attributes.filter (fun x => decide (x ∈ a.attributes))
      = b.attributes := by
    rw [List.filter_eq_self]
    intro x hx
    simpa using hsub x hx
  have hres : (a.attributes.filter fun x => decide (x ∉ b.attributes)) ≠ [] := by
    obtain ⟨x, hx1, hx2⟩ := hproper
    exact List.ne_nil_of_mem (List.mem_filter.mpr ⟨hx1, by simpa using hx2⟩)
  unfold division
  dsimp only
  rw [hcom, if_neg (by simp), if_neg hres, hempty]
  have hvac : ((a.data.image fun row => keyOf row
        ((a.attributes.filter fun x => decide (x ∉ b.attributes)).map
          fun x => a.attributes.indexOf x)).filter
      fun x => ∀ y ∈ (∅ : Finset (List α)), ∃ row ∈ a.data,
        keyOf row ((a.attributes.filter fun x => decide (x ∉ b.attributes)).map
          (fun x => a.attributes.indexOf x)) = x ∧
        keyOf row (b.attributes.map fun x => a.attributes.indexOf x) = y)
      = a.data.image fun row => keyOf row
        ((a.attributes.filter fun x => decide (x ∉ b.attributes)).map
          fun x => a.attributes.indexOf x) := by
    apply Finset.filter_true_of_mem
    intro x _
    simp
  rw [hvac]
  refine ⟨⟨a.name ++ "_DIV_" ++ b.name,
    a.attributes.filter fun x => decide (x ∉ b.attributes),
    a.data.image fun row => keyOf row
      ((a.attributes.filter fun x => decide (x ∉ b.attributes)).map
        fun x => a.attributes.indexOf x)⟩, ?_, rfl, ?_⟩
  · apply mkRelation_ok_iff.mpr
    refine ⟨fun t ht => ?_, rfl⟩
    obtain ⟨row, _, hrow⟩ := Finset.mem_image.mp ht
    rw [← hrow]
    simp [keyOf]
  · apply Finset.image_congr
    intro row _
    simp only [keyOf, List.map_map]
    rfl

/-- Recombining a row's projection onto the non-`battrs` attributes with
its projection onto `battrs` (in `battrs` order, indexed through `aattrs`)
recovers the row, provided the schema has no duplicate names and the row's
arity matches. -/
theorem recombine_keyOf (aattrs battrs : List String) (row : List α)
    (hna : aattrs.Nodup) (hlen : row.length = aattrs.length) :
    recombine aattrs battrs
      (keyOf row ((aattrs.filter fun d => decide (d ∉ battrs)).map
        fun d => aattrs.indexOf d))
      (keyOf row (battrs.map fun d => aattrs.indexOf d))
      = row := by
  unfold recombine keyOf
  rw [List.map_map, List.map_map]
  apply List.ext_getElem
  · simp [hlen]
  · intro i h1 h2
    have hi : i < aattrs.length := by simpa using h1
    have hirow : i < row.length := by simpa [hlen] using h2
    rw [List.getElem_map, List.getElem_range]
    have hgd : aattrs.getD i "" = aattrs[i] := getD_getElem _ _ hi
    rw [hgd]
    by_cases hc : aattrs[i] ∈ battrs
    · rw [if_pos hc]
      have hk : battrs.indexOf aattrs[i] < battrs.length :=
        List.indexOf_lt_length.mpr hc
      have hk2 : battrs.indexOf aattrs[i] <
          (battrs.map ((fun j => row.getD j default) ∘
            fun d => aattrs.indexOf d)).length := by
        simpa using hk
      rw [getD_getElem _ _ hk2, List.getElem_map]
      simp only [Function.comp_apply]
      rw [List.getElem_indexOf hk, List.indexOf_getElem hna i hi]
      exact getD_getElem _ _ hirow
    · rw [if_neg hc]
      have hmem : aattrs[i] ∈ aattrs.filter fun d => decide (d ∉ battrs) :=
        List.mem_filter.mpr ⟨List.getElem_mem hi, by simpa using hc⟩
      have hk : (aattrs.filter fun d => decide (d ∉ battrs)).indexOf aattrs[i]
          < (aattrs.filter fun d => decide (d ∉ battrs)).length :=
        List.indexOf_lt_length.mpr hmem
      have hk2 : (aattrs.filter fun d => decide (d ∉ battrs)).indexOf aattrs[i]
          < ((aattrs.filter fun d => decide (d ∉ battrs)).map
            ((fun j => row.getD j default) ∘ fun d => aattrs.indexOf d)).length := by
        simpa using hk
      rw [getD_getElem _ _ hk2, List.getElem_map]
      simp only [Function.comp_apply]
      rw [List.getElem_indexOf hk, List.indexOf_getElem hna i hi]
      exact getD_getElem _ _ hirow

/-- C2: when division succeeds, every result tuple `x` combined with every
divisor tuple (the divisor's values on the common attribute positions,
`x`'s values on the remaining positions) is a tuple of the dividend. -/
theorem division_inverse (a b : Relation α) (ha : a.valid)
    (hna : a.attributes.Nodup) (r : Relation α)
    (hr : division a b = Except.ok r) :
    ∀ x ∈ r.data, ∀ y ∈ b.data,
      recombine a.attributes b.attributes x y ∈ a.data := by
  intro x hx y hy
  unfold division at hr
  dsimp only at hr
  split at hr
  · cases hr
  · rename_i h1
    have hcom : b.attributes.filter (fun c => decide (c ∈ a.attributes))
        = b.attributes := by
      rw [List.filter_eq_self]
      intro c hc
      have heq : b.attributes.toFinset
          = (b.attributes.filter fun c => decide (c ∈ a.attributes)).toFinset :=
        not_not.mp h1
      have : c ∈ (b.attributes.filter
          fun c => decide (c ∈ a.attributes)).toFinset := by
        rw [← heq]
        simpa using hc
      simpa using (List.mem_filter.mp (List.mem_toFinset.mp this)).2
    rw [hcom] at hr
    split at hr
    · cases hr
    · obtain ⟨hlen, hreq⟩ := mkRelation_ok_iff.mp hr
      subst hreq
      obtain ⟨-, hpred⟩ := Finset.mem_filter.mp hx
      obtain ⟨row, hrowmem, hx1, hy1⟩ := hpred y hy
      rw [← hx1, ← hy1]
      rw [recombine_keyOf a.attributes b.attributes row hna (ha row hrowmem)]
      exact hrowmem

/-- A position `j` of `battrs` is one of the positions the join drops
exactly when the attribute at `j` is a common attribute, provided the
schema has no duplicate names. -/
theorem mem_indexOf_map_iff (battrs common : List String)
    (hnb : battrs.Nodup) (hsub : ∀ c ∈ common, c ∈ battrs)
    {j : Nat} (hj : j < battrs.length) :
    j ∈ common.map (fun c => battrs.indexOf c) ↔ battrs[j] ∈ common := by
  constructor
  · intro h
    obtain ⟨c, hc, hcj⟩ := List.mem_map.mp h
    have hlt : battrs.indexOf c < battrs.length :=
      List.indexOf_lt_length.mpr (hsub c hc)
    subst hcj
    rw [List.getElem_indexOf hlt]
    exact hc
  · intro h
    apply List.mem_map.mpr
    exact ⟨battrs[j], h, List.indexOf_getElem hnb j hj⟩

/-- Selecting the positions of `l` whose entry satisfies `p` out of a
parallel list `row` is the same as filtering the zipped list on `p` over
the first component and keeping the second. -/
theorem select_positions_eq_zip_filter (l : List String) (row : List α)
    (p : String → Bool) (h : row.length = l.length) :
    ((List.range l.length).filter fun j => p (l.getD j "")).map
        (fun j => row.getD j default)
      = ((l.zip row).filter fun q => p q.1).map Prod.snd := by
  induction l generalizing row with
  | nil =>
    cases row with
    | nil => simp
    | cons v tr => simp at h
  | cons c tl ih =>
    cases row with
    | nil => simp at h
    | cons v tr =>
      have htr : tr.length = tl.length := by simpa using h
      rw [List.length_cons, List.range_succ_eq_map, List.filter_cons]
      have hmap : (List.map Nat.succ (List.range tl.length)).filter
            (fun j => p ((c :: tl).getD j ""))
          = List.map Nat.succ
            ((List.range tl.length).filter fun j => p (tl.getD j "")) := by
        rw [List.filter_map]
        rfl
      rw [hmap]
      by_cases hp : p c = true
      · simp only [List.getD_cons_zero, hp, if_pos, List.zip_cons_cons,
          List.filter_cons, List.map_cons, List.map_map]
        rw [← ih tr htr]
        simp
      · simp only [List.getD_cons_zero, hp, List.zip_cons_cons,
          List.filter_cons, List.map_map]
        rw [if_neg (by simpa using hp), if_neg (by simpa using hp)]
        rw [← ih tr htr]
        simp

/-- The zip-filter-snd selection has as many entries as the filter of the
attribute list alone. -/
theorem length_zip_filter_snd (l : List String) (row : List α)
    (p : String → Bool) (h : row.length = l.length) :
    (((l.zip row).filter fun q => p q.1).map Prod.snd).length
      = (l.filter p).length := by
  have hfst : ((l.zip row).filter fun q => p q.1).map Prod.fst
      = l.filter p := by
    have hm : ((l.zip row).map Prod.fst).filter p
        = ((l.zip row).filter (p ∘ Prod.fst)).map Prod.fst :=
      List.filter_map Prod.fst (l.zip row)
    rw [List.map_fst_zip l row (le_of_eq h.symm)] at hm
    rw [hm]
    rfl
  rw [List.length_map, ← hfst, List.length_map]

/-- The join's removal of the common-attribute positions from a `B`-row,
done in the source by dropping the indices `b_common_indices`, equals the
name-level description: keep the values whose attribute is not common. -/
theorem strip_eq_zip_filter (battrs common : List String)
    (hnb : battrs.Nodup) (hsub : ∀ c ∈ common, c ∈ battrs)
    (tb : List α) (hlen : tb.length = battrs.length) :
    ((List.range battrs.length).filter fun j =>
        decide (j ∉ common.map fun c => battrs.indexOf c)).map
      (fun j => tb.getD j default)
      = ((battrs.zip tb).filter fun q => decide (q.1 ∉ common)).map
          Prod.snd := by
  rw [← select_positions_eq_zip_filter battrs tb
    (fun s => decide (s ∉ common)) hlen]
  congr 1
  apply List.filter_congr
  intro j hj
  have hjl : j < battrs.length := List.mem_range.mp hj
  rw [getD_getElem _ _ hjl]
  have hiff := mem_indexOf_map_iff battrs common hnb hsub hjl
  exact decide_eq_decide.mpr (not_congr hiff)

/-- C1: with at least one shared attribute name, natural join succeeds; the
result schema is `A`'s attributes followed by `B`'s attributes not named in
`A`, and the result data holds exactly the concatenations of an `A`-tuple
with the non-common part of a `B`-tuple, over all pairs of tuples that
agree on the value of every common attribute. -/
theorem natural_join_spec (a b : Relation α) (ha : a.valid) (hb : b.valid)
    (hnb : b.attributes.Nodup)
    (hshared : ∃ c, c ∈ a.attributes ∧ c ∈ b.attributes) :
    ∃ r, natural_join a b = Except.ok r ∧
      r.attributes = a.attributes ++
        (b.attributes.filter fun c => decide (c ∉ a.attributes)) ∧
      ∀ t, t ∈ r.data ↔ ∃ ta ∈ a.data, ∃ tb ∈ b.data,
        (∀ c ∈ a.attributes, c ∈ b.attributes →
          ta.getD (a.attributes.indexOf c) default
            = tb.getD (b.attributes.indexOf c) default) ∧
        t = ta ++ ((b.attributes.zip tb).filter
            fun q => decide (q.1 ∉ a.attributes)).map Prod.snd := by
  have hne : (a.attributes.filter fun c => decide (c ∈ b.attributes)) ≠ [] := by
    obtain ⟨c, hca, hcb⟩ := hshared
    exact List.ne_nil_of_mem (List.mem_filter.mpr ⟨hca, by simpa using hcb⟩)
  have hsub : ∀ c ∈ a.attributes.filter fun c => decide (c ∈ b.attributes),
      c ∈ b.attributes := by
    intro c hc
    simpa using (List.mem_filter.mp hc).2
  have hstrip : ∀ tb ∈ b.data,
      ((List.range b.attributes.length).filter fun j =>
          decide (j ∉ (a.attributes.filter fun c =>
            decide (c ∈ b.attributes)).map fun c => b.attributes.indexOf c)).map
        (fun j => tb.getD j default)
      = ((b.attributes.zip tb).filter fun q =>
          decide (q.1 ∉ a.attributes)).map Prod.snd := by
    intro tb htb
    rw [strip_eq_zip_filter b.attributes
      (a.attributes.filter fun c => decide (c ∈ b.attributes))
      hnb hsub tb (hb tb htb)]
    apply congrArg
    apply List.filter_congr
    intro q hq
    have hq1 : q.1 ∈ b.attributes := (List.of_mem_zip hq).1
    apply decide_eq_decide.mpr
    apply not_congr
    simp [List.mem_filter, hq1]
  unfold natural_join
  dsimp only
  rw [if_neg hne]
  have harity : ∀ t ∈ ((a.data ×ˢ b.data).filter fun p =>
        keyOf p.1 ((a.attributes.filter fun c =>
          decide (c ∈ b.attributes)).map fun c => a.attributes.indexOf c)
        = keyOf p.2 ((a.attributes.filter fun c =>
          decide (c ∈ b.attributes)).map fun c => b.attributes.indexOf c)).image
      (fun p => p.1 ++ ((List.range b.attributes.length).filter fun j =>
        decide (j ∉ (a.attributes.filter fun c =>
          decide (c ∈ b.attributes)).map fun c => b.attributes.indexOf c)).map
        fun j => p.2.getD j default),
      t.length = (a.attributes ++ b.attributes.filter fun c =>
        decide (c ∉ a.attributes.filter fun d =>
          decide (d ∈ b.attributes))).length := by
    intro t ht
    obtain ⟨⟨ta, tb⟩, hp, hpt⟩ := Finset.mem_image.mp ht
    obtain ⟨hprod, -⟩ := Finset.mem_filter.mp hp
    obtain ⟨hta, htb⟩ := Finset.mem_product.mp hprod
    rw [← hpt]
    rw [List.length_append, List.length_append]
    rw [hstrip tb htb, ha ta hta]
    rw [length_zip_filter_snd b.attributes tb
      (fun s => decide (s ∉ a.attributes)) (hb tb htb)]
    congr 1
    apply congrArg
    apply List.filter_congr
    intro c hc
    apply decide_eq_decide.mpr
    apply not_congr
    rw [List.mem_filter]
    simp [hc]
  unfold mkRelation
  rw [if_pos harity]
  refine ⟨_, rfl, ?_, ?_⟩
  · show _ ++ _ = _ ++ _
    congr 1
    apply List.filter_congr
    intro c hc
    apply decide_eq_decide.mpr
    apply not_congr
    simp [List.mem_filter, hc]
  · intro t
    show t ∈ Finset.image _ _ ↔ _
    rw [Finset.mem_image]
    constructor
    · rintro ⟨⟨ta, tb⟩, hp, rfl⟩
      obtain ⟨hprod, hkey⟩ := Finset.mem_filter.mp hp
      obtain ⟨hta, htb⟩ := Finset.mem_product.mp hprod
      refine ⟨ta, hta, tb, htb, ?_, ?_⟩
      · intro c hca hcb
        have hc : c ∈ a.attributes.filter fun d => decide (d ∈ b.attributes) :=
          List.mem_filter.mpr ⟨hca, by simpa using hcb⟩
        unfold keyOf at hkey
        rw [List.map_map, List.map_map] at hkey
        simpa using List.map_inj_left.mp hkey c hc
      · show ta ++ _ = ta ++ _
        congr 1
        exact hstrip tb htb
    · rintro ⟨ta, hta, tb, htb, hagree, rfl⟩
      refine ⟨⟨ta, tb⟩, Finset.mem_filter.mpr
        ⟨Finset.mem_product.mpr ⟨hta, htb⟩, ?_⟩, ?_⟩
      · unfold keyOf
        rw [List.map_map, List.map_map]
        apply List.map_inj_left.mpr
        intro c hc
        obtain ⟨hca, hcb⟩ := List.mem_filter.mp hc
        simpa using hagree c hca (by simpa using hcb)
      · show ta ++ _ = ta ++ _
        congr 1
        exact hstrip tb htb

/-! ### Witnesses: the claim theorems applied at concrete inputs -/

/-- Witness for C4 at two compatible one-column relations. -/
theorem union_spec_witness :
    (xRel.attributes = yRel.attributes →
      ∃ r, union xRel yRel = Except.ok r ∧ r.data = xRel.data ∪ yRel.data ∧
        r.attributes = xRel.attributes) ∧
    (xRel.attributes ≠ yRel.attributes →
      union xRel yRel = Except.error RelError.schemaMismatch) :=
  union_spec xRel yRel (by decide) (by decide)

/-- Witness for C8 on the demo relation with a missing attribute name. -/
theorem rename_spec_witness :
    ("zz" ∉ studentsRel.attributes →
      rename studentsRel "zz" "w"
        = Except.error (RelError.attributeNotFound "zz")) ∧
    ("zz" ∈ studentsRel.attributes →
      ∃ s, rename studentsRel "zz" "w" = Except.ok s ∧
        s.data = studentsRel.data ∧
        s.attributes = studentsRel.attributes.map
          fun x => if x = "zz" then "w" else x) :=
  rename_spec studentsRel (by decide) "zz" "w"

/-- Witness for C9 with all ten operators run on concrete relations. -/
theorem operators_preserve_arity_witness :
    resultValid (rename xRel "x" "w") ∧ resultValid (union xRel yRel) ∧
    resultValid (intersection xRel yRel) ∧
    resultValid (difference xRel yRel) ∧
    resultValid (assign xRel "W") ∧
    resultValid (cartesian_product xRel yRel) ∧
    resultValid (selection xRel fun row => true) ∧
    resultValid (projection xRel ["x"]) ∧
    resultValid (natural_join xRel yRel) ∧ resultValid (division xRel yRel) :=
  operators_preserve_arity xRel yRel (by decide) (by decide) "x" "w" "W"
    (fun row => true) ["x"]

/-- Witness for C5 on two concrete two-tuple relations. -/
theorem cartesian_product_card_witness :
    ∃ r, cartesian_product xRel yRel = Except.ok r ∧
      r.data.card = xRel.data.card * yRel.data.card :=
  cartesian_product_card xRel yRel (by decide) (by decide)

/-- Witness for C6 on two relations with disjoint schemas. -/
theorem natural_join_disjoint_witness :
    natural_join xRel zRel = cartesian_product xRel zRel :=
  natural_join_disjoint xRel zRel (by decide)

/-- Witness for C7: projecting the demo relation onto its group column. -/
theorem projection_idempotent_witness :
    ∃ p q, projection studentsRel ["gid"] = Except.ok p ∧
      projection p ["gid"] = Except.ok q ∧
      q.attributes = p.attributes ∧ q.data = p.data :=
  projection_idempotent studentsRel ["gid"] (by decide)

/-- Witness for C10: dividing by an empty divisor over `y`. -/
theorem division_empty_divisor_witness :
    ∃ r, division divARel emptyBRel = Except.ok r ∧
      r.attributes = (divARel.attributes.filter
        fun c => decide (c ∉ emptyBRel.attributes)) ∧
      r.data = divARel.data.image fun row =>
        (divARel.attributes.filter
          fun c => decide (c ∉ emptyBRel.attributes)).map
            fun c => row.getD (divARel.attributes.indexOf c) default :=
  division_empty_divisor divARel emptyBRel (by decide) (by decide) (by decide)

/-- Witness for C2: `x = (1)` from `A ÷ B` recombined with `y = (5)` is a
tuple of `A`. -/
theorem division_inverse_witness :
    recombine divARel.attributes divBRel.attributes [1] [5] ∈ divARel.data :=
  division_inverse divARel divBRel (by decide) (by decide)
    ⟨"A_DIV_B", ["x"], {[1]}⟩ (by rfl) [1] (by decide) [5] (by decide)

/-- Witness for C1: the students/groups join of the demonstration block. -/
theorem natural_join_spec_witness :
    ∃ r, natural_join studentsRel groupsRel = Except.ok r ∧
      r.attributes = studentsRel.attributes ++
        (groupsRel.attributes.filter
          fun c => decide (c ∉ studentsRel.attributes)) ∧
      ∀ t, t ∈ r.data ↔ ∃ ta ∈ studentsRel.data, ∃ tb ∈ groupsRel.data,
        (∀ c ∈ studentsRel.attributes, c ∈ groupsRel.attributes →
          ta.getD (studentsRel.attributes.indexOf c) default
            = tb.getD (groupsRel.attributes.indexOf c) default) ∧
        t = ta ++ ((groupsRel.attributes.zip tb).filter
            fun q => decide (q.1 ∉ studentsRel.attributes)).map Prod.snd :=
  natural_join_spec studentsRel groupsRel (by decide) (by decide) (by decide)
    ⟨"gid", by decide, by decide⟩

end RelAlg
